import Mathlib

/-!
Verification model of the plugin inspection command (`src/commands/plugins/inspect.ts`).

Strings are modelled as `List Char` (`Str`), paths use the POSIX separator `'/'`.
Filesystem reads are modelled as a function from paths to a `ReadOutcome`,
capturing the possible results of `readFile` + `JSON.parse` at a manifest path.
Terminal styling (`chalk`) only wraps text in colour escape codes when a TTY is
attached; it is modelled as the identity on the styled text.
-/

/-- Strings of the model: lists of characters. -/
abbrev Str := List Char

/-- The modules-install directory marker, `'node_modules'` in the source. -/
def nmStr : Str := "node_modules".data

/-- The manifest filename, `'package.json'` in the source. -/
def pkgJsonStr : Str := "package.json".data

/-- The arrow separator used in display labels, `' => '` in the source. -/
def arrowStr : Str := " => ".data

/-- `fsPath.split(path.sep)`: split a path at every `'/'`.
(JS `"".split("/") = [""]`, so the result is never empty.) -/
def splitSep : Str → List Str
  | [] => [[]]
  | c :: cs =>
    if c = '/' then [] :: splitSep cs
    else
      match splitSep cs with
      | [] => [[c]]
      | s :: ss => (c :: s) :: ss

/-- `parts.join(path.sep)`: interleave `'/'` between the parts. -/
def joinSep : List Str → Str
  | [] => []
  | [s] => s
  | s :: ss => s ++ '/' :: joinSep ss

/-- `path.join(a, b)` for already-normalized segments: concatenate with a
single separator (Node's further normalization is not exercised by the
command, which only joins normal segments). -/
def pathJoin (a b : Str) : Str :=
  if a = [] then b
  else if b = [] then a
  else if a.getLast? = some '/' then a ++ b
  else a ++ '/' :: b

/-- Scan of `path.dirname` (POSIX): walk indices `i` from `len-1` down to `1`
looking for the last `'/'` that is followed by a non-`'/'` character
(`matchedSlash` starts `true`, trailing slashes are skipped). Returns Node's
`end` index, or `none` when no such slash exists. -/
def dirEndGo (p : Str) : Nat → Bool → Option Nat
  | 0, _ => none
  | i + 1, matchedSlash =>
    if p.getD (i + 1) ' ' = '/' then
      if matchedSlash then dirEndGo p i true else some (i + 1)
    else dirEndGo p i false

/-- `path.dirname` (POSIX variant), following Node's implementation. -/
def dirname (p : Str) : Str :=
  if p = [] then ['.']
  else
    let hasRoot := p.take 1 = ['/']
    match dirEndGo p (p.length - 1) true with
    | none => if hasRoot then ['/'] else ['.']
    | some e => if hasRoot ∧ e = 1 then ['/', '/'] else p.take e

/-- `(s.match(/node_modules/g) || []).length`: greedy left-to-right count of
non-overlapping occurrences of the marker. The first argument is the number
of characters still to skip after a match (the matched marker's tail). -/
def countNMAux : Nat → Str → Nat
  | _, [] => 0
  | 0, c :: cs =>
    if nmStr.isPrefixOf (c :: cs) then 1 + countNMAux (nmStr.length - 1) cs
    else countNMAux 0 cs
  | k + 1, _ :: cs => countNMAux k cs

/-- Number of regex matches of the marker in a path string. -/
def countNM (s : Str) : Nat := countNMAux 0 s

/-- The index accumulation of
`parts.reduce((a, e, i) => (e === part ? [...a, i] : a), [])`. -/
def indicesFrom (i₀ : Nat) : List Str → Str → List Nat
  | [], _ => []
  | e :: rest, part =>
    if e = part then i₀ :: indicesFrom (i₀ + 1) rest part
    else indicesFrom (i₀ + 1) rest part

/-- Indices of the parts equal to `part`. -/
def indicesOf (parts : List Str) (part : Str) : List Nat := indicesFrom 0 parts part

/-- A JavaScript number as produced by `Math.max(...indices)`:
either `-Infinity` (empty spread) or an integer. -/
inductive JSNum where
  | negInf : JSNum
  | int : Int → JSNum
deriving DecidableEq

/-- `Math.max(...l)`: `-Infinity` on the empty list, otherwise the maximum. -/
def jsMax (l : List Nat) : JSNum :=
  match l.max? with
  | none => JSNum.negInf
  | some m => JSNum.int m

/-- `x + 1` on JS numbers: `-Infinity + 1 = -Infinity`. -/
def jsAdd1 : JSNum → JSNum
  | JSNum.negInf => JSNum.negInf
  | JSNum.int i => JSNum.int (i + 1)

/-- `l.slice(0, e)` for a JS number `e`: `-Infinity` clamps to the empty
slice, a negative integer is an offset from the end, otherwise a prefix. -/
def jsSliceTo (l : List Str) : JSNum → List Str
  | JSNum.negInf => []
  | JSNum.int e => if e < 0 then l.take ((l.length : Int) + e).toNat else l.take e.toNat

/-- `trimUntil(fsPath, part)` from the source: truncate the path after the
last segment equal to `part`. -/
def trimUntil (fsPath part : Str) : Str :=
  let parts := splitSep fsPath
  let indices := indicesOf parts part
  let partIndex := jsMax indices
  if partIndex = JSNum.int (-1) then fsPath
  else joinSep (jsSliceTo parts (jsAdd1 partIndex))

/-- Fuel-bounded unrolling of the `while` loop of `findDep`
(`while (count(start) > 1) { start = trimUntil(dirname(start), marker); push }`),
returning `none` when the fuel is exhausted before the loop condition fails. -/
def chainLoop : Nat → Str → Option (List Str)
  | 0, start => if countNM start > 1 then none else some [start]
  | n + 1, start =>
    if countNM start > 1 then
      (chainLoop n (trimUntil (dirname start) nmStr)).map (start :: ·)
    else some [start]

/-- The search chain built by `findDep`'s loop. The fuel `start.length + 1`
is sufficient because the loop body strictly shortens the path, so the
default is never taken and the loop recurrence holds exactly (both facts are
proved below). -/
def chainFrom (start : Str) : List Str :=
  (chainLoop (start.length + 1) start).getD [start]

/-- Outcome of `JSON.parse(await readFile(path, 'utf8'))` at a manifest path:
a successful parse carries the (possibly missing) `version` field; the three
failure cases distinguish a parse failure of an existing file, a missing file
(`ENOENT`), and any other I/O-level error (e.g. `EACCES`). In the source all
three failures land in the same `catch` block. -/
inductive ReadOutcome where
  | ok : Option Str → ReadOutcome
  | parseError : ReadOutcome
  | notFound : ReadOutcome
  | ioError : ReadOutcome
deriving DecidableEq

/-- Whether the read+parse succeeded. -/
def ReadOutcome.isOk : ReadOutcome → Bool
  | ReadOutcome.ok _ => true
  | _ => false

/-- A filesystem state: what reading+parsing the file at each path yields. -/
abbrev FileSys := Str → ReadOutcome

/-- The external plugin descriptor (`Plugin` of the host framework), restricted
to the fields the command reads. `dependencies` models the
`pjson.dependencies` record as an association list (keys unique in JS). -/
structure PluginDescr where
  name : Str
  version : Str
  tag : Option Str
  homepage : Option Str
  root : Str
  dependencies : List (Str × Str)
  commandIDs : List Str

/-- The `for (const p of paths)` loop of `findDep`: try each container in
chain order; on the first successful read+parse return
`{pkgPath: fullPath, version: pkgJson.version}`; any failure falls into the
`catch` and the next path is tried; exhaustion yields `{null, null}`. -/
def findDepGo (fs : FileSys) (dependencyPath : Str) : List Str → Option Str × Option Str
  | [] => (none, none)
  | p :: rest =>
    let fullPath := pathJoin p dependencyPath
    let pkgJsonPath := pathJoin fullPath pkgJsonStr
    match fs pkgJsonPath with
    | ReadOutcome.ok v => (some fullPath, v)
    | _ => findDepGo fs dependencyPath rest

/-- The manifest path probed for dependency path `dp` at container `q`. -/
def probePath (dp q : Str) : Str := pathJoin (pathJoin q dp) pkgJsonStr

/-- `PluginsInspect.findDep(plugin, dependency)`. -/
def findDep (fs : FileSys) (plugin : PluginDescr) (dependency : Str) :
    Option Str × Option Str :=
  let dependencyPath := joinSep (splitSep dependency)
  let start := pathJoin plugin.root nmStr
  let paths := chainFrom start
  findDepGo fs dependencyPath paths

/-- The non-strict lexicographic order on strings used for sorting, compared
by character code. -/
def strLe : Str → Str → Bool
  | [], _ => true
  | _ :: _, [] => false
  | a :: as, b :: bs =>
    if a.toNat = b.toNat then strLe as bs else decide (a.toNat < b.toNat)

/-- Propositional form of `strLe`. -/
def SLe (a b : Str) : Prop := strLe a b = true

instance : DecidableRel SLe := fun a b => instDecidableEqBool (strLe a b) true

/-- Modelled from the spec: `sortBy` lives in `src/util.ts`, which is not part
of the provided sources; per the spec the declared dependency names and the
command identifiers are sorted "lexicographically ascending", modelled as an
insertion sort by `SLe`. -/
def sortBy (l : List Str) : List Str := List.insertionSort SLe l

/-- JS truthiness of a nullable string: `null`, `undefined` and `''` are falsy. -/
def jsTruthy : Option Str → Bool
  | some s => !s.isEmpty
  | none => false

/-- Template interpolation `${x}` of a nullable string: `null` prints "null". -/
def jsOptStr : Option Str → Str
  | some s => s
  | none => "null".data

/-- ``from ? `${from} => ${version}` : version`` (the `chalk.dim` styling is
the identity in this model). -/
def mkVersionMsg (fromRange : Option Str) (version : Str) : Str :=
  if jsTruthy fromRange then jsOptStr fromRange ++ arrowStr ++ version else version

/-- ``verbose ? `${dep} ${versionMsg} ${pkgPath}` : `${dep} ${versionMsg}` ``. -/
def mkMsg (dep : Str) (fromRange : Option Str) (version : Str) (pkgPath : Option Str)
    (verbose : Bool) : Str :=
  if verbose then
    dep ++ ' ' :: mkVersionMsg fromRange version ++ ' ' :: jsOptStr pkgPath
  else dep ++ ' ' :: mkVersionMsg fromRange version

/-- One iteration's products for a dependency that passed the
`if (!version) continue` check: the tree label `msg` and the flat-record
entry `{from, version}` stored at key `dep`. -/
structure DepRow where
  name : Str
  msg : Str
  fromRange : Option Str
  version : Str
deriving DecidableEq

/-- A flat-record entry: key and value of `depsJson[dep] = {from, version}`. -/
structure DepEntryJson where
  name : Str
  fromRange : Option Str
  version : Str
deriving DecidableEq

/-- The body of the dependency loop of `inspect` for one declared name. -/
def depRowOf (fs : FileSys) (plugin : PluginDescr) (verbose : Bool) (dep : Str) :
    Option DepRow :=
  match findDep fs plugin dep with
  | (pkgPath, version) =>
    match version with
    | none => none
    | some v =>
      if v.isEmpty then none
      else
        let fromRange := plugin.dependencies.lookup dep
        some ⟨dep, mkMsg dep fromRange v pkgPath verbose, fromRange, v⟩

/-- The dependency loop of `inspect`: iterate the sorted declared names,
skipping names whose resolved version is falsy. -/
def depRows (fs : FileSys) (plugin : PluginDescr) (verbose : Bool) : List DepRow :=
  (sortBy (plugin.dependencies.map Prod.fst)).filterMap (depRowOf fs plugin verbose)

/-- The report assembled by `inspect`: the fixed descriptive lines, the sorted
command labels, the labels inserted under the `dependencies` node, and the
flat `deps` record (which, as in the source, does not carry the label). -/
structure InspectReport where
  headerLines : List Str
  commands : List Str
  depLabels : List Str
  deps : List DepEntryJson
deriving DecidableEq

/-- `PluginsInspect.inspect(pluginName, verbose)` after the plugin has been
looked up: builds the tree contents and the flat `deps` record. -/
def inspect (fs : FileSys) (plugin : PluginDescr) (verbose : Bool) : InspectReport :=
  let rows := depRows fs plugin verbose
  { headerLines :=
      ["version ".data ++ plugin.version] ++
        (match plugin.tag with | some t => ["tag ".data ++ t] | none => []) ++
        (match plugin.homepage with | some h => ["homepage ".data ++ h] | none => []) ++
        ["location ".data ++ plugin.root]
    commands := sortBy plugin.commandIDs
    depLabels := rows.map DepRow.msg
    deps := rows.map fun r => ⟨r.name, r.fromRange, r.version⟩ }

/-- Replace the distinct-I/O-error outcome by plain absence. -/
def maskIOErr : ReadOutcome → ReadOutcome
  | ReadOutcome.ioError => ReadOutcome.notFound
  | ReadOutcome.ok v => ReadOutcome.ok v
  | ReadOutcome.parseError => ReadOutcome.parseError
  | ReadOutcome.notFound => ReadOutcome.notFound

/-- Replace the malformed-manifest outcome by plain absence. -/
def maskParseErr : ReadOutcome → ReadOutcome
  | ReadOutcome.parseError => ReadOutcome.notFound
  | ReadOutcome.ok v => ReadOutcome.ok v
  | ReadOutcome.ioError => ReadOutcome.ioError
  | ReadOutcome.notFound => ReadOutcome.notFound

/-! Concrete fixtures: a plugin installed at `/a/node_modules/p`, whose search
chain is `[/a/node_modules/p/node_modules, /a/node_modules]`, and filesystem
states that place the dependency `x`'s manifest at various candidates. -/

/-- A plugin rooted at `/a/node_modules/p`, declaring the dependency
`x` with range `^1.0.0`, with commands declared out of order. -/
def plug0 : PluginDescr :=
  { name := "p".data
    version := "1.0.0".data
    tag := none
    homepage := none
    root := "/a/node_modules/p".data
    dependencies := [("x".data, "^1.0.0".data)]
    commandIDs := ["zeta".data, "alpha".data, "mid".data] }

/-- The inner candidate manifest path for `x`. -/
def innerPkg : Str := "/a/node_modules/p/node_modules/x/package.json".data

/-- The outer candidate manifest path for `x`. -/
def outerPkg : Str := "/a/node_modules/x/package.json".data

/-- Filesystem: permission error at the inner candidate, valid manifest at the
outer one. -/
def fsIOInner : FileSys := fun p =>
  if p = innerPkg then ReadOutcome.ioError
  else if p = outerPkg then ReadOutcome.ok (some "2.0.0".data)
  else ReadOutcome.notFound

/-- Filesystem: valid manifest at the inner candidate only. -/
def fsInner : FileSys := fun p =>
  if p = innerPkg then ReadOutcome.ok (some "1.2.0".data)
  else ReadOutcome.notFound

/-- Filesystem: valid manifest at the outer candidate only, same version as
`fsInner` installs at the inner one. -/
def fsOuter : FileSys := fun p =>
  if p = outerPkg then ReadOutcome.ok (some "1.2.0".data)
  else ReadOutcome.notFound

/-- Filesystem: malformed manifest at the inner candidate, valid manifest at
the outer one. -/
def fsParseInner : FileSys := fun p =>
  if p = innerPkg then ReadOutcome.parseError
  else if p = outerPkg then ReadOutcome.ok (some "2.0.0".data)
  else ReadOutcome.notFound

/-- Filesystem: valid manifests at both candidates, with different versions. -/
def fsBoth : FileSys := fun p =>
  if p = innerPkg then ReadOutcome.ok (some "1.2.0".data)
  else if p = outerPkg then ReadOutcome.ok (some "9.9.9".data)
  else ReadOutcome.notFound

/-- Filesystem: every read fails with `ENOENT`. -/
def fsAbsent : FileSys := fun _ => ReadOutcome.notFound

/-! ## Helper lemmas about the candidate loop -/

theorem findDepGo_first_ok (fs : FileSys) (dp : Str) :
    ∀ (paths : List Str) (j : Nat) (p : Str) (v : Option Str),
      paths[j]? = some p →
      fs (probePath dp p) = ReadOutcome.ok v →
      (∀ k q, k < j → paths[k]? = some q → (fs (probePath dp q)).isOk = false) →
      findDepGo fs dp paths = (some (pathJoin p dp), v)
  | [], j, p, v, hj, _, _ => by simp at hj
  | a :: rest, j, p, v, hj, hok, hfirst => by
    cases j with
    | zero =>
      simp only [List.getElem?_cons_zero, Option.some.injEq] at hj
      subst hj
      simp only [findDepGo, probePath] at hok ⊢
      rw [hok]
    | succ j' =>
      have h0 : (fs (probePath dp a)).isOk = false := by
        exact hfirst 0 a (Nat.succ_pos _) (by simp)
      have hrec := findDepGo_first_ok fs dp rest j' p v (by simpa using hj) hok
        (fun k q hk hq => hfirst (k + 1) q (by omega) (by simpa using hq))
      simp only [findDepGo, probePath] at h0 ⊢
      cases hfs : fs (pathJoin (pathJoin a dp) pkgJsonStr) with
      | ok w => rw [hfs] at h0; simp [ReadOutcome.isOk] at h0
      | parseError => exact hrec
      | notFound => exact hrec
      | ioError => exact hrec

theorem findDepGo_all_fail (fs : FileSys) (dp : Str) :
    ∀ paths : List Str,
      (∀ q ∈ paths, (fs (probePath dp q)).isOk = false) →
      findDepGo fs dp paths = (none, none)
  | [], _ => rfl
  | a :: rest, h => by
    have h0 := h a (List.mem_cons_self a rest)
    have hrec := findDepGo_all_fail fs dp rest (fun q hq => h q (List.mem_cons_of_mem a hq))
    simp only [findDepGo, probePath] at h0 ⊢
    cases hfs : fs (pathJoin (pathJoin a dp) pkgJsonStr) with
    | ok w => rw [hfs] at h0; simp [ReadOutcome.isOk] at h0
    | parseError => exact hrec
    | notFound => exact hrec
    | ioError => exact hrec

theorem findDepGo_snd_some (fs : FileSys) (dp : Str) :
    ∀ (paths : List Str) (v : Str),
      (findDepGo fs dp paths).2 = some v →
      ∃ p, findDepGo fs dp paths = (some p, some v)
  | [], v, h => by simp [findDepGo] at h
  | a :: rest, v, h => by
    simp only [findDepGo] at h ⊢
    cases hfs : fs (pathJoin (pathJoin a dp) pkgJsonStr) with
    | ok w =>
      rw [hfs] at h
      exact ⟨pathJoin a dp, by simp_all⟩
    | parseError => rw [hfs] at h; exact findDepGo_snd_some fs dp rest v h
    | notFound => rw [hfs] at h; exact findDepGo_snd_some fs dp rest v h
    | ioError => rw [hfs] at h; exact findDepGo_snd_some fs dp rest v h

theorem findDep_eq_go (fs : FileSys) (plugin : PluginDescr) (dep : Str) :
    findDep fs plugin dep =
      findDepGo fs (joinSep (splitSep dep)) (chainFrom (pathJoin plugin.root nmStr)) := rfl

theorem depRowOf_some (fs : FileSys) (plugin : PluginDescr) (verbose : Bool)
    (d : Str) (r : DepRow) (h : depRowOf fs plugin verbose d = some r) :
    r.name = d ∧ r.fromRange = plugin.dependencies.lookup d ∧
      (findDep fs plugin d).2 = some r.version ∧ r.version ≠ [] := by
  unfold depRowOf at h
  cases hfd : findDep fs plugin d with
  | mk pp ver =>
  rw [hfd] at h
  cases ver with
  | none => simp at h
  | some v =>
    simp only at h
    split at h
    · simp at h
    · next hne =>
      cases h
      refine ⟨rfl, rfl, by simp [hfd], ?_⟩
      simpa using hne

/-! ## C2 — I/O errors during resolution -/

theorem findDepGo_maskIO (fs : FileSys) (dp : Str) :
    ∀ paths : List Str,
      findDepGo (fun p => maskIOErr (fs p)) dp paths = findDepGo fs dp paths
  | [] => rfl
  | a :: rest => by
    have hrec := findDepGo_maskIO fs dp rest
    simp only [findDepGo]
    cases hfs : fs (pathJoin (pathJoin a dp) pkgJsonStr) with
    | ok w => simp [maskIOErr, hfs]
    | parseError => simp only [maskIOErr, hfs]; exact hrec
    | notFound => simp only [maskIOErr, hfs]; exact hrec
    | ioError => simp only [maskIOErr, hfs]; exact hrec

/-- C2 (counterexample): with a permission-style I/O error at the innermost
candidate's manifest and a valid manifest at the outer candidate, `findDep`
silently continues the search and returns the outer candidate — no distinct
error is ever raised, contradicting the claim. -/
theorem c2_io_counterexample :
    findDep fsIOInner plug0 "x".data =
      (some "/a/node_modules/x".data, some "2.0.0".data) := by decide

/-- C2 (amended): an I/O-level error other than "file absent" at a candidate
manifest is caught like any other read failure: resolution is unchanged if
every such error is replaced by "file absent", i.e. the error is silently
treated as "not found" and the search continues; no `ResolutionIOError`
exists. -/
theorem c2_io_treated_as_absent (fs : FileSys) (plugin : PluginDescr) (dep : Str) :
    findDep (fun p => maskIOErr (fs p)) plugin dep = findDep fs plugin dep := by
  rw [findDep_eq_go, findDep_eq_go]
  exact findDepGo_maskIO fs _ _

/-! ## C3 — innermost candidate wins -/

/-- C3: if the candidate at position `j` of the search chain is the first one
whose manifest reads and parses successfully, `findDep` returns exactly that
candidate's install path and version — later candidates (with whatever
versions) are never chosen. -/
theorem c3_innermost_wins (fs : FileSys) (plugin : PluginDescr) (dep : Str)
    (j : Nat) (p : Str) (v : Option Str)
    (hj : (chainFrom (pathJoin plugin.root nmStr))[j]? = some p)
    (hok : fs (probePath (joinSep (splitSep dep)) p) = ReadOutcome.ok v)
    (hfirst : ∀ k q, k < j → (chainFrom (pathJoin plugin.root nmStr))[k]? = some q →
      (fs (probePath (joinSep (splitSep dep)) q)).isOk = false) :
    findDep fs plugin dep = (some (pathJoin p (joinSep (splitSep dep))), v) := by
  rw [findDep_eq_go]
  exact findDepGo_first_ok fs _ _ j p v hj hok hfirst

/-- C3 witness: both candidates of the chain hold valid manifests with
different versions; the innermost one (`1.2.0`) wins over the outer `9.9.9`. -/
theorem c3_witness :
    findDep fsBoth plug0 "x".data =
      (some "/a/node_modules/p/node_modules/x".data, some "1.2.0".data) :=
  c3_innermost_wins fsBoth plug0 "x".data 0 "/a/node_modules/p/node_modules".data
    (some "1.2.0".data) (by decide) (by decide)
    (fun k _ hk _ => absurd hk (Nat.not_lt_zero k))

/-! ## C4 — unresolvable dependencies are omitted -/

/-- C4: when no candidate in the chain holds a readable manifest for `dep`,
`findDep` returns `{pkgPath: null, version: null}`, and `dep` contributes no
row to the dependency loop — so it appears neither in the flat `deps` record
nor as a node label. -/
theorem c4_absent_omitted (fs : FileSys) (plugin : PluginDescr) (dep : Str)
    (verbose : Bool)
    (h : ∀ q ∈ chainFrom (pathJoin plugin.root nmStr),
      (fs (probePath (joinSep (splitSep dep)) q)).isOk = false) :
    findDep fs plugin dep = (none, none)
    ∧ (∀ r ∈ depRows fs plugin verbose, r.name ≠ dep)
    ∧ dep ∉ (inspect fs plugin verbose).deps.map DepEntryJson.name := by
  have h1 : findDep fs plugin dep = (none, none) := by
    rw [findDep_eq_go]
    exact findDepGo_all_fail fs _ _ h
  have h2 : ∀ r ∈ depRows fs plugin verbose, r.name ≠ dep := by
    intro r hr heq
    obtain ⟨d, _, hrow⟩ := List.mem_filterMap.mp hr
    obtain ⟨hname, _, hver, _⟩ := depRowOf_some fs plugin verbose d r hrow
    rw [heq] at hname
    rw [← hname, h1] at hver
    simp at hver
  refine ⟨h1, h2, ?_⟩
  intro hmem
  simp only [inspect, List.map_map, List.mem_map, Function.comp] at hmem
  obtain ⟨r, hr, hname⟩ := hmem
  exact h2 r hr hname

/-- C4 witness: with every read failing, the dependency `x` resolves to
`{null, null}` and is absent from the report. -/
theorem c4_witness :
    findDep fsAbsent plug0 "x".data = (none, none)
    ∧ (∀ r ∈ depRows fsAbsent plug0 false, r.name ≠ "x".data)
    ∧ "x".data ∉ (inspect fsAbsent plug0 false).deps.map DepEntryJson.name :=
  c4_absent_omitted fsAbsent plug0 "x".data false (fun q _ => by simp [fsAbsent, ReadOutcome.isOk])

/-! ## C5 — malformed manifests are skipped -/

/-- C5: a manifest that exists but fails to parse at each candidate before
position `j` behaves like absence there: the search continues, and the valid
manifest at the outer candidate `j` is found and returned. -/
theorem c5_malformed_skip (fs : FileSys) (plugin : PluginDescr) (dep : Str)
    (j : Nat) (p : Str) (v : Option Str)
    (hbefore : ∀ k q, k < j → (chainFrom (pathJoin plugin.root nmStr))[k]? = some q →
      fs (probePath (joinSep (splitSep dep)) q) = ReadOutcome.parseError)
    (hj : (chainFrom (pathJoin plugin.root nmStr))[j]? = some p)
    (hok : fs (probePath (joinSep (splitSep dep)) p) = ReadOutcome.ok v) :
    findDep fs plugin dep = (some (pathJoin p (joinSep (splitSep dep))), v) := by
  rw [findDep_eq_go]
  exact findDepGo_first_ok fs _ _ j p v hj hok
    (fun k q hk hq => by rw [hbefore k q hk hq]; rfl)

/-- C5 witness: malformed manifest at the innermost candidate, valid manifest
one level out; the outer copy is resolved. -/
theorem c5_witness :
    findDep fsParseInner plug0 "x".data =
      (some "/a/node_modules/x".data, some "2.0.0".data) :=
  c5_malformed_skip fsParseInner plug0 "x".data 1 "/a/node_modules".data
    (some "2.0.0".data)
    (fun k q hk hq => by
      have hk0 : k = 0 := by omega
      subst hk0
      have h0 : (chainFrom (pathJoin plug0.root nmStr))[0]? =
          some "/a/node_modules/p/node_modules".data := by decide
      rw [h0] at hq
      have := Option.some.inj hq
      subst this
      decide)
    (by decide) (by decide)

/-! ## Order lemmas for the sort relation -/

theorem strLe_total : ∀ a b : Str, strLe a b = true ∨ strLe b a = true
  | [], _ => Or.inl rfl
  | _ :: _, [] => Or.inr rfl
  | a :: as, b :: bs => by
    simp only [strLe]
    rcases Nat.lt_trichotomy a.toNat b.toNat with h | h | h
    · left; rw [if_neg (Nat.ne_of_lt h)]; exact decide_eq_true h
    · rw [if_pos h, if_pos h.symm]
      exact strLe_total as bs
    · right; rw [if_neg (Nat.ne_of_lt h)]; exact decide_eq_true h

theorem strLe_trans : ∀ a b c : Str, strLe a b = true → strLe b c = true → strLe a c = true
  | [], _, _, _, _ => rfl
  | _ :: _, [], _, h, _ => by simp [strLe] at h
  | _ :: _, _ :: _, [], _, h => by simp [strLe] at h
  | a :: as, b :: bs, c :: cs, h1, h2 => by
    simp only [strLe] at h1 h2 ⊢
    by_cases hab : a.toNat = b.toNat
    · rw [if_pos hab] at h1
      by_cases hbc : b.toNat = c.toNat
      · rw [if_pos hbc] at h2
        rw [if_pos (hab.trans hbc)]
        exact strLe_trans as bs cs h1 h2
      · have hlt : b.toNat < c.toNat := of_decide_eq_true (by rwa [if_neg hbc] at h2)
        rw [if_neg (by omega)]
        exact decide_eq_true (by omega)
    · have h1' : a.toNat < b.toNat := of_decide_eq_true (by rwa [if_neg hab] at h1)
      by_cases hbc : b.toNat = c.toNat
      · rw [if_neg (by omega)]; exact decide_eq_true (by omega)
      · have h2' : b.toNat < c.toNat := of_decide_eq_true (by rwa [if_neg hbc] at h2)
        rw [if_neg (by omega)]; exact decide_eq_true (by omega)

theorem sortBy_sorted (l : List Str) : (sortBy l).Sorted SLe :=
  @List.sorted_insertionSort Str SLe _ ⟨strLe_total⟩ ⟨strLe_trans⟩ l

/-! ## C6 — report ordering -/

theorem depRows_names_sublist (fs : FileSys) (plugin : PluginDescr) (verbose : Bool) :
    ∀ l : List Str, ((l.filterMap (depRowOf fs plugin verbose)).map DepRow.name).Sublist l
  | [] => by simp
  | d :: t => by
    cases h : depRowOf fs plugin verbose d with
    | none =>
      simp only [List.filterMap_cons, h]
      exact (depRows_names_sublist fs plugin verbose t).cons d
    | some r =>
      simp only [List.filterMap_cons, h, List.map_cons]
      rw [(depRowOf_some fs plugin verbose d r h).1]
      exact (depRows_names_sublist fs plugin verbose t).cons₂ d

theorem mkMsg_starts_with_dep (dep : Str) (fromRange : Option Str) (version : Str)
    (pkgPath : Option Str) (verbose : Bool) :
    dep <+: mkMsg dep fromRange version pkgPath verbose := by
  unfold mkMsg
  split
  · exact ⟨' ' :: (mkVersionMsg fromRange version ++ ' ' :: jsOptStr pkgPath), by simp⟩
  · exact ⟨' ' :: mkVersionMsg fromRange version, rfl⟩

theorem depRowOf_msg_starts_with (fs : FileSys) (plugin : PluginDescr) (verbose : Bool)
    (d : Str) (r : DepRow) (h : depRowOf fs plugin verbose d = some r) :
    r.name <+: r.msg := by
  unfold depRowOf at h
  cases hfd : findDep fs plugin d with
  | mk pp ver =>
  rw [hfd] at h
  cases ver with
  | none => simp at h
  | some v =>
    simp only at h
    split at h
    · simp at h
    · cases h
      exact mkMsg_starts_with_dep d _ v pp verbose

/-- C6: in every report, the flat `deps` record lists dependencies in
lexicographically ascending name order, the `commands` node lists command
identifiers in ascending order, and each label of the `dependencies` node is
the corresponding flat entry's name followed by its version text — all of
this regardless of the declaration order in the plugin metadata. -/
theorem c6_sorted_report (fs : FileSys) (plugin : PluginDescr) (verbose : Bool) :
    ((inspect fs plugin verbose).deps.map DepEntryJson.name).Sorted SLe
    ∧ ((inspect fs plugin verbose).commands).Sorted SLe
    ∧ List.Forall₂ (fun (e : DepEntryJson) (lbl : Str) => e.name <+: lbl)
        (inspect fs plugin verbose).deps (inspect fs plugin verbose).depLabels := by
  refine ⟨?_, sortBy_sorted _, ?_⟩
  · simp only [inspect, List.map_map]
    have hc : (DepEntryJson.name ∘ fun r : DepRow =>
        (⟨r.name, r.fromRange, r.version⟩ : DepEntryJson)) = DepRow.name := rfl
    rw [hc]
    exact List.Pairwise.sublist
      (depRows_names_sublist fs plugin verbose _) (sortBy_sorted _)
  · simp only [inspect]
    rw [List.forall₂_map_left_iff, List.forall₂_map_right_iff]
    rw [List.forall₂_same]
    intro r hr
    obtain ⟨d, _, hrow⟩ := List.mem_filterMap.mp hr
    exact depRowOf_msg_starts_with fs plugin verbose d r hrow

/-! ## C10 — verbose does not influence the flat record -/

theorem depRowOf_json_indep (fs : FileSys) (plugin : PluginDescr) (d : Str)
    (v1 v2 : Bool) :
    Option.map (fun r : DepRow => (⟨r.name, r.fromRange, r.version⟩ : DepEntryJson))
        (depRowOf fs plugin v1 d) =
      Option.map (fun r : DepRow => (⟨r.name, r.fromRange, r.version⟩ : DepEntryJson))
        (depRowOf fs plugin v2 d) := by
  unfold depRowOf
  cases findDep fs plugin d with
  | mk pp ver =>
    cases ver with
    | none => rfl
    | some v => by_cases hv : v.isEmpty <;> simp [hv]

/-- C10: the flat machine-readable `deps` record is identical whether or not
`verbose` is set; `verbose` changes only the human-facing labels (the
commands and descriptive lines are also unaffected). -/
theorem c10_verbose_invariant (fs : FileSys) (plugin : PluginDescr) :
    (inspect fs plugin true).deps = (inspect fs plugin false).deps
    ∧ (inspect fs plugin true).commands = (inspect fs plugin false).commands
    ∧ (inspect fs plugin true).headerLines = (inspect fs plugin false).headerLines := by
  refine ⟨?_, rfl, rfl⟩
  simp only [inspect, depRows]
  rw [List.map_filterMap, List.map_filterMap]
  have hfun : (fun d => Option.map
        (fun r : DepRow => (⟨r.name, r.fromRange, r.version⟩ : DepEntryJson))
        (depRowOf fs plugin true d)) =
      fun d => Option.map
        (fun r : DepRow => (⟨r.name, r.fromRange, r.version⟩ : DepEntryJson))
        (depRowOf fs plugin false d) :=
    funext fun d => depRowOf_json_indep fs plugin d true false
  rw [hfun]

/-! ## C1 — fields of the flat record -/

/-- C1 (counterexample): the resolved install path is not part of the flat
record. Two filesystem states that install `x` (same version) at different
candidates — so `findDep` resolves different install paths — produce
byte-identical flat records; were `resolvedPath` a field of every entry, the
records would differ. -/
theorem c1_no_path_counterexample :
    (inspect fsInner plug0 false).deps = (inspect fsOuter plug0 false).deps
    ∧ (findDep fsInner plug0 "x".data).1 ≠ (findDep fsOuter plug0 "x".data).1 := by
  constructor
  · decide
  · decide

/-- C1 (amended): every flat record entry carries exactly the three fields
`{name, declaredRange, resolvedVersion}` — correctly populated: the declared
range is the `pjson.dependencies` lookup of the name and the version is the
one `findDep` resolves (at some install path, which is not recorded). -/
theorem c1_flat_record_fields (fs : FileSys) (plugin : PluginDescr) (verbose : Bool)
    (e : DepEntryJson) (he : e ∈ (inspect fs plugin verbose).deps) :
    e.fromRange = plugin.dependencies.lookup e.name
    ∧ ∃ p, findDep fs plugin e.name = (some p, some e.version) := by
  simp only [inspect, List.mem_map] at he
  obtain ⟨r, hr, rfl⟩ := he
  obtain ⟨d, _, hrow⟩ := List.mem_filterMap.mp hr
  obtain ⟨hname, hfrom, hver, _⟩ := depRowOf_some fs plugin verbose d r hrow
  refine ⟨by simp only [hname, hfrom], ?_⟩
  simp only [hname]
  rw [findDep_eq_go] at hver ⊢
  exact findDepGo_snd_some fs _ _ r.version hver

/-- C1 witness: the concrete entry for `x` carries its declared range and the
resolved version. -/
theorem c1_flat_record_witness :
    (⟨"x".data, some "^1.0.0".data, "1.2.0".data⟩ : DepEntryJson) ∈
        (inspect fsInner plug0 false).deps
    ∧ ((⟨"x".data, some "^1.0.0".data, "1.2.0".data⟩ : DepEntryJson).fromRange =
          plug0.dependencies.lookup "x".data
        ∧ ∃ p, findDep fsInner plug0 "x".data = (some p, some "1.2.0".data)) :=
  ⟨by decide, c1_flat_record_fields fsInner plug0 false _ (by decide)⟩

/-! ## C7 — display label formatting -/

/-- C7 (counterexample): with a declared range equal to the resolved version
(so the range neither differs from nor is absent relative to the version),
the label still shows the `range => version` arrow form — refuting the
claimed "exactly when it differs or is absent". -/
theorem c7_label_counterexample :
    mkVersionMsg (some "1.0.0".data) "1.0.0".data = "1.0.0 => 1.0.0".data
    ∧ arrowStr <:+: mkVersionMsg (some "1.0.0".data) "1.0.0".data
    ∧ mkVersionMsg (some "1.0.0".data) "1.0.0".data ≠ "1.0.0".data := by
  refine ⟨by decide, ⟨"1.0.0".data, "1.0.0".data, by decide⟩, by decide⟩

/-- C7 (amended): the label shows `declaredRange => resolvedVersion` exactly
when a declared range is present and non-empty — regardless of whether it
differs from the resolved version — and otherwise shows the bare version;
when `verbose` is set, the resolved install path is additionally appended to
the label. -/
theorem c7_label_arrow (dep : Str) (fromRange : Option Str) (version : Str)
    (pkgPath : Option Str) (hv : ¬ arrowStr <:+: version) :
    (arrowStr <:+: mkVersionMsg fromRange version ↔ jsTruthy fromRange = true)
    ∧ mkMsg dep fromRange version pkgPath true =
        mkMsg dep fromRange version pkgPath false ++ ' ' :: jsOptStr pkgPath := by
  constructor
  · unfold mkVersionMsg
    by_cases ht : jsTruthy fromRange = true
    · rw [if_pos ht]
      exact ⟨fun _ => ht, fun _ => ⟨jsOptStr fromRange, version, by simp⟩⟩
    · rw [if_neg ht]
      exact ⟨fun h => absurd h hv, fun h => absurd h ht⟩
  · unfold mkMsg
    simp

/-- C7 witness at a concrete label: range `^1.0.0`, version `1.2.0`. -/
theorem c7_label_witness :
    ¬ arrowStr <:+: "1.2.0".data
    ∧ ((arrowStr <:+: mkVersionMsg (some "^1.0.0".data) "1.2.0".data ↔
          jsTruthy (some "^1.0.0".data) = true)
        ∧ mkMsg "x".data (some "^1.0.0".data) "1.2.0".data
            (some "/a/node_modules/x".data) true =
          mkMsg "x".data (some "^1.0.0".data) "1.2.0".data
            (some "/a/node_modules/x".data) false ++ ' ' :: jsOptStr (some "/a/node_modules/x".data)) :=
  ⟨by decide, c7_label_arrow "x".data (some "^1.0.0".data) "1.2.0".data
    (some "/a/node_modules/x".data) (by decide)⟩

/-! ## C8 — `trimUntil` with no matching segment -/

theorem indicesFrom_of_not_mem (part : Str) :
    ∀ (i : Nat) (l : List Str), part ∉ l → indicesFrom i l part = []
  | _, [], _ => rfl
  | i, e :: rest, h => by
    have he : ¬ e = part := fun heq => h (by rw [heq]; exact List.mem_cons_self part rest)
    simp only [indicesFrom, if_neg he]
    exact indicesFrom_of_not_mem part (i + 1) rest (fun hm => h (List.mem_cons_of_mem e hm))

/-- C8: `Math.max` over the empty index list is `-Infinity`, never `-1`, so
the `partIndex === -1` fallback returning the input unchanged is unreachable
for every input; consequently, when no path segment equals the marker,
`trimUntil` returns the empty string rather than the input path. -/
theorem c8_trimUntil_no_match (fsPath part : Str) :
    jsMax (indicesOf (splitSep fsPath) part) ≠ JSNum.int (-1)
    ∧ (part ∉ splitSep fsPath → trimUntil fsPath part = []) := by
  have hmax : ∀ l : List Nat, jsMax l ≠ JSNum.int (-1) := by
    intro l
    unfold jsMax
    cases h : l.max? with
    | none => simp
    | some m => simp only [ne_eq, JSNum.int.injEq]; omega
  refine ⟨hmax _, fun hnot => ?_⟩
  have hidx : indicesOf (splitSep fsPath) part = [] :=
    indicesFrom_of_not_mem part 0 (splitSep fsPath) hnot
  simp [trimUntil, hidx, jsMax, jsAdd1, jsSliceTo, joinSep]

/-- C8 witness: a path with no `node_modules` segment is trimmed to the empty
string, not returned unchanged. -/
theorem c8_witness :
    nmStr ∉ splitSep "/a/b".data
    ∧ trimUntil "/a/b".data nmStr = []
    ∧ jsMax (indicesOf (splitSep "/a/b".data) nmStr) ≠ JSNum.int (-1) :=
  ⟨by decide, (c8_trimUntil_no_match "/a/b".data nmStr).2 (by decide),
    (c8_trimUntil_no_match "/a/b".data nmStr).1⟩

/-! ## C9 — termination of the search-chain loop -/

theorem countNM_pos_length : ∀ s : Str, 1 ≤ countNMAux 0 s → 12 ≤ s.length
  | [], h => by simp [countNMAux] at h
  | c :: cs, h => by
    by_cases hp : nmStr.isPrefixOf (c :: cs)
    · have hpre := List.isPrefixOf_iff_prefix.mp hp
      have hle := hpre.length_le
      have h12 : nmStr.length = 12 := by decide
      omega
    · simp only [countNMAux, if_neg hp] at h
      have := countNM_pos_length cs h
      simp only [List.length_cons]
      omega

theorem dirEndGo_bounds (p : Str) :
    ∀ (i : Nat) (b : Bool) (e : Nat), dirEndGo p i b = some e → 1 ≤ e ∧ e ≤ i
  | 0, b, e, h => by simp [dirEndGo] at h
  | i + 1, b, e, h => by
    unfold dirEndGo at h
    split at h
    · split at h
      · have := dirEndGo_bounds p i true e h
        omega
      · cases h
        omega
    · have := dirEndGo_bounds p i false e h
      omega

theorem dirname_length_lt (p : Str) (h3 : 3 ≤ p.length) : (dirname p).length < p.length := by
  have hne : ¬ p = [] := by
    intro h
    rw [h] at h3
    simp at h3
  unfold dirname
  rw [if_neg hne]
  cases hgo : dirEndGo p (p.length - 1) true with
  | none =>
    simp only [hgo]
    split <;> simp <;> omega
  | some e =>
    obtain ⟨he1, he2⟩ := dirEndGo_bounds p (p.length - 1) true e hgo
    simp only [hgo]
    split
    · simp only [List.length_cons, List.length_nil]
      omega
    · simp only [List.length_take]
      omega

theorem splitSep_ne_nil : ∀ s : Str, splitSep s ≠ []
  | [] => by simp [splitSep]
  | c :: cs => by
    unfold splitSep
    by_cases hc : c = '/'
    · rw [if_pos hc]
      simp
    · rw [if_neg hc]
      cases h : splitSep cs <;> simp

theorem joinSep_cons (s : Str) (t : List Str) :
    joinSep (s :: t) = if t = [] then s else s ++ '/' :: joinSep t := by
  cases t <;> simp [joinSep]

theorem joinSep_splitSep : ∀ s : Str, joinSep (splitSep s) = s
  | [] => rfl
  | c :: cs => by
    unfold splitSep
    by_cases hc : c = '/'
    · rw [if_pos hc, joinSep_cons, if_neg (splitSep_ne_nil cs), joinSep_splitSep cs]
      simp [hc]
    · rw [if_neg hc]
      cases h : splitSep cs with
      | nil => exact absurd h (splitSep_ne_nil cs)
      | cons s ss =>
        have hrec : joinSep (s :: ss) = cs := by
          rw [← h]
          exact joinSep_splitSep cs
        rw [joinSep_cons] at hrec ⊢
        by_cases hss : ss = []
        · rw [if_pos hss] at hrec ⊢
          rw [hrec]
        · rw [if_neg hss] at hrec ⊢
          rw [List.cons_append, hrec]

theorem joinSep_take_length_le : ∀ (l : List Str) (k : Nat),
    (joinSep (l.take k)).length ≤ (joinSep l).length
  | [], k => by simp
  | s :: t, 0 => by simp [joinSep]
  | s :: t, k + 1 => by
    rw [List.take_succ_cons, joinSep_cons, joinSep_cons]
    by_cases htk : t.take k = []
    · rw [if_pos htk]
      split
      · exact Nat.le_refl _
      · simp only [List.length_append, List.length_cons]
        omega
    · have htne : t ≠ [] := fun h => htk (by rw [h]; simp)
      rw [if_neg htk, if_neg htne]
      have := joinSep_take_length_le t k
      simp only [List.length_append, List.length_cons]
      omega

theorem joinSep_slice_le (p : Str) (n : JSNum) :
    (joinSep (jsSliceTo (splitSep p) (jsAdd1 n))).length ≤ p.length := by
  cases n with
  | negInf => simp [jsAdd1, jsSliceTo, joinSep]
  | int i =>
    simp only [jsAdd1, jsSliceTo]
    split
    · have := joinSep_take_length_le (splitSep p) (((splitSep p).length : Int) + (i + 1)).toNat
      rw [joinSep_splitSep p] at this
      exact this
    · have := joinSep_take_length_le (splitSep p) (i + 1).toNat
      rw [joinSep_splitSep p] at this
      exact this

theorem trimUntil_length_le (p part : Str) : (trimUntil p part).length ≤ p.length := by
  show (if jsMax (indicesOf (splitSep p) part) = JSNum.int (-1) then p
      else joinSep (jsSliceTo (splitSep p)
        (jsAdd1 (jsMax (indicesOf (splitSep p) part))))).length ≤ p.length
  split
  · exact Nat.le_refl _
  · exact joinSep_slice_le p (jsMax (indicesOf (splitSep p) part))

theorem loop_body_length_lt (s : Str) (h : countNM s > 1) :
    (trimUntil (dirname s) nmStr).length < s.length := by
  have h12 : 12 ≤ s.length := countNM_pos_length s (by unfold countNM at h; omega)
  have hd : (dirname s).length < s.length := dirname_length_lt s (by omega)
  exact lt_of_le_of_lt (trimUntil_length_le _ _) hd

theorem chainLoop_succ (n : Nat) (s : Str) :
    chainLoop (n + 1) s =
      if countNM s > 1 then (chainLoop n (trimUntil (dirname s) nmStr)).map (s :: ·)
      else some [s] := rfl

theorem chainLoop_congr : ∀ (n m : Nat) (s : Str),
    s.length < n → s.length < m → chainLoop n s = chainLoop m s
  | 0, _, s, hn, _ => absurd hn (Nat.not_lt_zero _)
  | _ + 1, 0, s, _, hm => absurd hm (Nat.not_lt_zero _)
  | n + 1, m + 1, s, hn, hm => by
    rw [chainLoop_succ, chainLoop_succ]
    by_cases hc : countNM s > 1
    · rw [if_pos hc, if_pos hc]
      have hlt := loop_body_length_lt s hc
      rw [chainLoop_congr n m (trimUntil (dirname s) nmStr) (by omega) (by omega)]
    · rw [if_neg hc, if_neg hc]

theorem chainLoop_isSome : ∀ (n : Nat) (s : Str),
    s.length < n → (chainLoop n s).isSome = true
  | 0, s, hn => absurd hn (Nat.not_lt_zero _)
  | n + 1, s, hn => by
    rw [chainLoop_succ]
    by_cases hc : countNM s > 1
    · rw [if_pos hc]
      have hlt := loop_body_length_lt s hc
      have hrec := chainLoop_isSome n (trimUntil (dirname s) nmStr) (by omega)
      cases hx : chainLoop n (trimUntil (dirname s) nmStr) with
      | none => rw [hx] at hrec; simp at hrec
      | some c => simp
    · rw [if_neg hc]; rfl

theorem chainFrom_rec (s : Str) :
    chainFrom s =
      if countNM s > 1 then s :: chainFrom (trimUntil (dirname s) nmStr) else [s] := by
  unfold chainFrom
  rw [chainLoop_succ]
  by_cases hc : countNM s > 1
  · rw [if_pos hc, if_pos hc]
    have hlt := loop_body_length_lt s hc
    have hcongr : chainLoop s.length (trimUntil (dirname s) nmStr) =
        chainLoop ((trimUntil (dirname s) nmStr).length + 1) (trimUntil (dirname s) nmStr) :=
      chainLoop_congr _ _ _ (by omega) (Nat.lt_succ_self _)
    have hsome := chainLoop_isSome ((trimUntil (dirname s) nmStr).length + 1)
      (trimUntil (dirname s) nmStr) (Nat.lt_succ_self _)
    cases hx : chainLoop ((trimUntil (dirname s) nmStr).length + 1)
        (trimUntil (dirname s) nmStr) with
    | none => rw [hx] at hsome; simp at hsome
    | some c =>
      rw [hcongr, hx]
      simp
  · rw [if_neg hc, if_neg hc]
    rfl

theorem chainFrom_ne_nil (s : Str) : chainFrom s ≠ [] := by
  rw [chainFrom_rec]
  split <;> simp

theorem getLast?_cons_of_ne_nil (s : Str) :
    ∀ t : List Str, t ≠ [] → (s :: t).getLast? = t.getLast?
  | [], h => absurd rfl h
  | _ :: _, _ => List.getLast?_cons_cons

theorem chainFrom_last : ∀ (n : Nat) (s : Str), s.length ≤ n →
    ∃ l, (chainFrom s).getLast? = some l ∧ countNM l ≤ 1
  | 0, s, hn => by
    have hs : countNM s ≤ 1 := by
      have : s = [] := List.length_eq_zero.mp (Nat.le_zero.mp hn)
      rw [this]
      decide
    rw [chainFrom_rec, if_neg (by omega)]
    exact ⟨s, by simp, hs⟩
  | n + 1, s, hn => by
    rw [chainFrom_rec]
    by_cases hc : countNM s > 1
    · rw [if_pos hc]
      have hlt := loop_body_length_lt s hc
      obtain ⟨l, hl, hcount⟩ := chainFrom_last n (trimUntil (dirname s) nmStr) (by omega)
      refine ⟨l, ?_, hcount⟩
      rw [getLast?_cons_of_ne_nil s _ (chainFrom_ne_nil _)]
      exact hl
    · rw [if_neg hc]
      exact ⟨s, by simp, by omega⟩

/-- C9: the search-chain loop of `findDep` terminates on every starting path.
Concretely: (i) the fuel bound `start.length + 1` always suffices for the
loop unrolling (each iteration strictly shortens the path, cf.
`loop_body_length_lt`), so `chainFrom` satisfies exactly the loop's
recurrence (ii); and (iii) the final chain entry fails the
"more than one marker occurrence" loop condition, i.e. the condition
eventually becomes false with no explicit depth bound needed. -/
theorem c9_chain_loop_terminates (start : Str) :
    chainLoop (start.length + 1) start = some (chainFrom start)
    ∧ chainFrom start =
        (if countNM start > 1 then start :: chainFrom (trimUntil (dirname start) nmStr)
          else [start])
    ∧ ∃ l, (chainFrom start).getLast? = some l ∧ countNM l ≤ 1 := by
  refine ⟨?_, chainFrom_rec start, chainFrom_last start.length start (Nat.le_refl _)⟩
  have hsome := chainLoop_isSome (start.length + 1) start (Nat.lt_succ_self _)
  cases hx : chainLoop (start.length + 1) start with
  | none => rw [hx] at hsome; simp at hsome
  | some c =>
    unfold chainFrom
    rw [hx]
    rfl

